import Mathlib

/-!
Verification of the hierarchical batch splitter and the OTLP text-rendering
helpers of this repository.

The splitter (`splitLogs` of the batch processor) is exercised by the test
file in the sources; the implementation itself is not among the given
sources, so it is modelled here from the algorithm of the specification
(spec sections 3 and 4.2).  The text-rendering helpers
(`attributeValueToString`, `sliceToString`, `mapToString` of
`internal/otlptext/databuffer.go`) are embedded directly from the source.
-/

set_option maxRecDepth 4000

namespace OtelSplit

/-- Modelled from the spec: a Scope Group owns a Scope Descriptor (copied by
value) and an ordered sequence of Leaf Records.  Descriptor and leaf payload
types are opaque parameters. -/
structure ScopeGroup (σ α : Type) where
  scope : σ
  records : List α
  deriving DecidableEq

/-- Modelled from the spec: a Resource Group owns a Resource Descriptor and an
ordered sequence of Scope Groups. -/
structure ResourceGroup (ρ σ α : Type) where
  resource : ρ
  scopes : List (ScopeGroup σ α)
  deriving DecidableEq

/-- Modelled from the spec: a Telemetry Record Tree is an ordered sequence of
Resource Groups. -/
abbrev Logs (ρ σ α : Type) := List (ResourceGroup ρ σ α)

variable {ρ σ α : Type}

/-- Number of leaf records in one Scope Group. -/
def ScopeGroup.leafCount (sg : ScopeGroup σ α) : Nat := sg.records.length

/-- Number of leaf records in a sequence of Scope Groups. -/
def countS (sgs : List (ScopeGroup σ α)) : Nat :=
  (sgs.map ScopeGroup.leafCount).sum

/-- Number of leaf records in one Resource Group. -/
def ResourceGroup.leafCount (rg : ResourceGroup ρ σ α) : Nat := countS rg.scopes

/-- Total leaf count of a tree; mirrors the `LogRecordCount` accessor the
tests call on `pdata.Logs`. -/
def logRecordCount (t : Logs ρ σ α) : Nat :=
  (t.map ResourceGroup.leafCount).sum

/-- The leaf sequence of a sequence of Scope Groups, in traversal order. -/
def leavesS (sgs : List (ScopeGroup σ α)) : List α :=
  (sgs.map ScopeGroup.records).flatten

/-- The leaf sequence of a whole tree: Resource Groups in order, Scope Groups
in order within each, leaf records in order within each — the total order the
spec defines over all leaves. -/
def leaves (t : Logs ρ σ α) : List α :=
  (t.map fun rg => leavesS rg.scopes).flatten

/-- Modelled from the spec: the Scope-Group walk of the main path of the splitter
(spec section 4.2, step 2b).  Given the remaining quota `q` and the Scope
Groups of one Resource Group it returns the Scope Groups extracted, the Scope
Groups remaining in the original (fully drained groups removed), and the
remaining quota.  `tk = min quota remaining`; when `tk` covers the whole
group the leaf sequence is moved and the group removed from the original,
otherwise the first `tk` leaves are copied out and the group keeps the rest. -/
def splitScopes : Nat → List (ScopeGroup σ α) →
    List (ScopeGroup σ α) × List (ScopeGroup σ α) × Nat
  | q, [] => ([], [], q)
  | q, sg :: rest =>
    if q = 0 then ([], sg :: rest, 0)
    else
      let n := sg.records.length
      let tk := min q n
      if tk = n then
        let r := splitScopes (q - tk) rest
        (sg :: r.1, r.2.1, r.2.2)
      else
        ([⟨sg.scope, sg.records.take tk⟩], ⟨sg.scope, sg.records.drop tk⟩ :: rest, 0)

/-- Modelled from the spec: the Resource-Group walk of the main path of the
splitter (spec section 4.2, steps 2a-2c).  A Resource Group is created in the
extracted tree only when some Scope Group was extracted from it; a Resource
Group whose leaf count reaches zero is removed entirely from the original. -/
def splitResources : Nat → Logs ρ σ α → Logs ρ σ α × Logs ρ σ α × Nat
  | q, [] => ([], [], q)
  | q, rg :: rest =>
    if q = 0 then ([], rg :: rest, 0)
    else
      let s := splitScopes q rg.scopes
      let r := splitResources s.2.2 rest
      let exPart : Logs ρ σ α := if s.1.isEmpty then [] else [⟨rg.resource, s.1⟩]
      let remPart : Logs ρ σ α := if countS s.2.1 = 0 then [] else [⟨rg.resource, s.2.1⟩]
      (exPart ++ r.1, remPart ++ r.2.1, r.2.2)

/-- Modelled from the spec: `splitLogs` of the batch processor, whose
implementation is not among the given sources (only its tests are).
`split(maxRecords, tree)` returns the pair (extracted tree, original tree
after the call).  Spec section 4.2: `maxRecords <= 0` extracts nothing and
leaves the original untouched; when the total leaf count is at most
`maxRecords` the call is a pure no-op returning the input tree itself;
otherwise the main path extracts a prefix of exactly `maxRecords` leaves. -/
def splitLogs (size : Int) (src : Logs ρ σ α) : Logs ρ σ α × Logs ρ σ α :=
  if size ≤ 0 then ([], src)
  else if (logRecordCount src : Int) ≤ size then (src, src)
  else
    let r := splitResources size.toNat src
    (r.1, r.2.1)

example :
    splitLogs 2 [(⟨0, [⟨0, [10, 11, 12]⟩]⟩ : ResourceGroup Nat Nat Nat)] =
      ([⟨0, [⟨0, [10, 11]⟩]⟩], [⟨0, [⟨0, [12]⟩]⟩]) := by decide

example :
    splitLogs 5 [(⟨0, [⟨0, [10, 11, 12]⟩]⟩ : ResourceGroup Nat Nat Nat)] =
      ([⟨0, [⟨0, [10, 11, 12]⟩]⟩], [⟨0, [⟨0, [10, 11, 12]⟩]⟩]) := by decide

example :
    splitLogs 4
      [(⟨0, [⟨0, [1, 2, 3]⟩]⟩ : ResourceGroup Nat Nat Nat), ⟨1, [⟨1, [4, 5, 6]⟩]⟩] =
      ([⟨0, [⟨0, [1, 2, 3]⟩]⟩, ⟨1, [⟨1, [4]⟩]⟩], [⟨1, [⟨1, [5, 6]⟩]⟩]) := by decide

@[simp]
lemma leavesS_nil : leavesS ([] : List (ScopeGroup σ α)) = [] := rfl

@[simp]
lemma leavesS_cons (sg : ScopeGroup σ α) (sgs : List (ScopeGroup σ α)) :
    leavesS (sg :: sgs) = sg.records ++ leavesS sgs := by
  simp [leavesS]

@[simp]
lemma countS_nil : countS ([] : List (ScopeGroup σ α)) = 0 := rfl

@[simp]
lemma countS_cons (sg : ScopeGroup σ α) (sgs : List (ScopeGroup σ α)) :
    countS (sg :: sgs) = sg.records.length + countS sgs := by
  simp [countS, ScopeGroup.leafCount]

lemma countS_eq_length (sgs : List (ScopeGroup σ α)) :
    countS sgs = (leavesS sgs).length := by
  induction sgs with
  | nil => rfl
  | cons sg rest ih => simp [ih]

@[simp]
lemma leaves_nil : leaves ([] : Logs ρ σ α) = [] := rfl

@[simp]
lemma leaves_cons (rg : ResourceGroup ρ σ α) (t : Logs ρ σ α) :
    leaves (rg :: t) = leavesS rg.scopes ++ leaves t := by
  simp [leaves]

@[simp]
lemma leaves_append (t₁ t₂ : Logs ρ σ α) :
    leaves (t₁ ++ t₂) = leaves t₁ ++ leaves t₂ := by
  simp [leaves]

@[simp]
lemma logRecordCount_nil : logRecordCount ([] : Logs ρ σ α) = 0 := rfl

@[simp]
lemma logRecordCount_cons (rg : ResourceGroup ρ σ α) (t : Logs ρ σ α) :
    logRecordCount (rg :: t) = countS rg.scopes + logRecordCount t := by
  simp [logRecordCount, ResourceGroup.leafCount]

@[simp]
lemma logRecordCount_append (t₁ t₂ : Logs ρ σ α) :
    logRecordCount (t₁ ++ t₂) = logRecordCount t₁ + logRecordCount t₂ := by
  simp [logRecordCount]

lemma logRecordCount_eq_length (t : Logs ρ σ α) :
    logRecordCount t = (leaves t).length := by
  induction t with
  | nil => rfl
  | cons rg rest ih => simp [ih, countS_eq_length]

lemma splitScopes_zero (sgs : List (ScopeGroup σ α)) :
    splitScopes 0 sgs = ([], sgs, 0) := by
  cases sgs <;> simp [splitScopes]

lemma splitResources_zero (t : Logs ρ σ α) :
    splitResources 0 t = ([], t, 0) := by
  cases t <;> simp [splitResources]

lemma splitScopes_leaves (q : Nat) (sgs : List (ScopeGroup σ α)) :
    leavesS (splitScopes q sgs).1 ++ leavesS (splitScopes q sgs).2.1 = leavesS sgs := by
  induction sgs generalizing q with
  | nil => simp [splitScopes]
  | cons sg rest ih =>
    by_cases hq : q = 0
    · simp [splitScopes, hq]
    · by_cases hfull : min q sg.records.length = sg.records.length
      · simp only [splitScopes, if_neg hq, if_pos hfull]
        simp [List.append_assoc, ih]
      · simp only [splitScopes, if_neg hq, if_neg hfull]
        simp only [leavesS_cons, leavesS_nil, List.append_nil]
        rw [← List.append_assoc, List.take_append_drop]

lemma splitScopes_quota_le (q : Nat) (sgs : List (ScopeGroup σ α)) :
    (splitScopes q sgs).2.2 ≤ q := by
  induction sgs generalizing q with
  | nil => simp [splitScopes]
  | cons sg rest ih =>
    by_cases hq : q = 0
    · simp [splitScopes, hq]
    · by_cases hfull : min q sg.records.length = sg.records.length
      · simp only [splitScopes, if_neg hq, if_pos hfull]
        exact le_trans (ih _) (Nat.sub_le _ _)
      · simp only [splitScopes, if_neg hq, if_neg hfull]
        exact Nat.zero_le q

lemma splitScopes_count_ex (q : Nat) (sgs : List (ScopeGroup σ α)) :
    countS (splitScopes q sgs).1 = min q (countS sgs) := by
  induction sgs generalizing q with
  | nil => simp [splitScopes]
  | cons sg rest ih =>
    by_cases hq : q = 0
    · simp [splitScopes, hq]
    · by_cases hfull : min q sg.records.length = sg.records.length
      · have hle : sg.records.length ≤ q := by omega
        simp only [splitScopes, if_neg hq, if_pos hfull]
        simp only [countS_cons, ih]
        omega
      · have hlt : q < sg.records.length := by omega
        simp only [splitScopes, if_neg hq, if_neg hfull]
        simp only [countS_cons, countS_nil, List.length_take]
        omega

lemma splitScopes_quota_eq (q : Nat) (sgs : List (ScopeGroup σ α)) :
    (splitScopes q sgs).2.2 = q - countS (splitScopes q sgs).1 := by
  induction sgs generalizing q with
  | nil => simp [splitScopes]
  | cons sg rest ih =>
    by_cases hq : q = 0
    · simp [splitScopes, hq]
    · by_cases hfull : min q sg.records.length = sg.records.length
      · have hle : sg.records.length ≤ q := by omega
        simp only [splitScopes, if_neg hq, if_pos hfull]
        simp only [countS_cons, ih]
        omega
      · have hlt : q < sg.records.length := by omega
        simp only [splitScopes, if_neg hq, if_neg hfull]
        simp only [countS_cons, countS_nil, List.length_take]
        omega

lemma splitScopes_rem_of_quota (q : Nat) (sgs : List (ScopeGroup σ α))
    (h : (splitScopes q sgs).2.2 ≠ 0) : leavesS (splitScopes q sgs).2.1 = [] := by
  induction sgs generalizing q with
  | nil => simp [splitScopes]
  | cons sg rest ih =>
    by_cases hq : q = 0
    · rw [hq, splitScopes_zero] at h
      exact absurd rfl h
    · by_cases hfull : min q sg.records.length = sg.records.length
      · simp only [splitScopes, if_neg hq, if_pos hfull] at h ⊢
        exact ih _ h
      · simp only [splitScopes, if_neg hq, if_neg hfull] at h
        exact absurd rfl h

lemma leaves_exPart (r : ρ) (exS : List (ScopeGroup σ α)) :
    leaves (if exS.isEmpty then ([] : Logs ρ σ α) else [⟨r, exS⟩]) = leavesS exS := by
  cases exS <;> simp

lemma leaves_remPart (r : ρ) (remS : List (ScopeGroup σ α)) :
    leaves (if countS remS = 0 then ([] : Logs ρ σ α) else [⟨r, remS⟩]) = leavesS remS := by
  by_cases h : countS remS = 0
  · have h2 : leavesS remS = [] := by
      have hl := countS_eq_length remS
      rw [h] at hl
      exact List.eq_nil_of_length_eq_zero hl.symm
    simp [h, h2]
  · simp [h]

lemma count_exPart (r : ρ) (exS : List (ScopeGroup σ α)) :
    logRecordCount (if exS.isEmpty then ([] : Logs ρ σ α) else [⟨r, exS⟩]) = countS exS := by
  cases exS <;> simp

lemma count_remPart (r : ρ) (remS : List (ScopeGroup σ α)) :
    logRecordCount (if countS remS = 0 then ([] : Logs ρ σ α) else [⟨r, remS⟩]) =
      countS remS := by
  by_cases h : countS remS = 0
  · simp [h]
  · simp [h]

lemma splitResources_quota_le (q : Nat) (t : Logs ρ σ α) :
    (splitResources q t).2.2 ≤ q := by
  induction t generalizing q with
  | nil => simp [splitResources]
  | cons rg rest ih =>
    by_cases hq : q = 0
    · simp [splitResources, hq]
    · simp only [splitResources, if_neg hq]
      exact le_trans (ih _) (splitScopes_quota_le q rg.scopes)

lemma splitResources_rem_of_quota (q : Nat) (t : Logs ρ σ α)
    (h : (splitResources q t).2.2 ≠ 0) : leaves (splitResources q t).2.1 = [] := by
  induction t generalizing q with
  | nil => simp [splitResources]
  | cons rg rest ih =>
    by_cases hq : q = 0
    · rw [hq, splitResources_zero] at h
      exact absurd rfl h
    · simp only [splitResources, if_neg hq] at h ⊢
      have hq2 : (splitScopes q rg.scopes).2.2 ≠ 0 := by
        intro h0
        rw [h0, splitResources_zero] at h
        exact absurd rfl h
      have hremS : leavesS (splitScopes q rg.scopes).2.1 = [] :=
        splitScopes_rem_of_quota _ _ hq2
      have hcount : countS (splitScopes q rg.scopes).2.1 = 0 := by
        rw [countS_eq_length, hremS]
        rfl
      rw [leaves_append, leaves_remPart, hremS, List.nil_append]
      exact ih _ h

lemma splitResources_leaves (q : Nat) (t : Logs ρ σ α) :
    leaves (splitResources q t).1 ++ leaves (splitResources q t).2.1 = leaves t := by
  induction t generalizing q with
  | nil => simp [splitResources]
  | cons rg rest ih =>
    by_cases hq : q = 0
    · rw [hq, splitResources_zero]
      simp
    · simp only [splitResources, if_neg hq, leaves_append]
      by_cases hq2 : (splitScopes q rg.scopes).2.2 = 0
      · rw [hq2, splitResources_zero, leaves_exPart, leaves_remPart]
        simp only [leaves_nil, List.append_nil, leaves_cons]
        rw [← List.append_assoc, splitScopes_leaves]
      · have hremS : leavesS (splitScopes q rg.scopes).2.1 = [] :=
          splitScopes_rem_of_quota _ _ hq2
        have hcount : countS (splitScopes q rg.scopes).2.1 = 0 := by
          rw [countS_eq_length, hremS]
          rfl
        have hexS : leavesS (splitScopes q rg.scopes).1 = leavesS rg.scopes := by
          have hh := splitScopes_leaves q rg.scopes
          rw [hremS, List.append_nil] at hh
          exact hh
        rw [leaves_exPart, leaves_remPart, hremS, hexS, List.nil_append, leaves_cons,
          List.append_assoc, ih]

lemma splitResources_count_ex (q : Nat) (t : Logs ρ σ α) :
    logRecordCount (splitResources q t).1 = min q (logRecordCount t) := by
  induction t generalizing q with
  | nil => simp [splitResources]
  | cons rg rest ih =>
    by_cases hq : q = 0
    · rw [hq, splitResources_zero]
      simp
    · simp only [splitResources, if_neg hq, logRecordCount_append, logRecordCount_cons]
      rw [count_exPart, ih, splitScopes_quota_eq, splitScopes_count_ex]
      omega

/-- A tree is well-formed when it has no dangling empty groups: every Resource
Group has at least one Scope Group and every Scope Group at least one Leaf
Record. -/
def WellFormed (t : Logs ρ σ α) : Prop :=
  ∀ rg ∈ t, rg.scopes ≠ [] ∧ ∀ sg ∈ rg.scopes, sg.records ≠ []

instance (t : Logs ρ σ α) [DecidableEq α] [DecidableEq σ] : Decidable (WellFormed t) := by
  unfold WellFormed
  infer_instance

lemma splitScopes_ex_wf (q : Nat) (sgs : List (ScopeGroup σ α))
    (h : ∀ sg ∈ sgs, sg.records ≠ []) :
    ∀ sg ∈ (splitScopes q sgs).1, sg.records ≠ [] := by
  induction sgs generalizing q with
  | nil => simp [splitScopes]
  | cons sg rest ih =>
    by_cases hq : q = 0
    · simp [splitScopes, hq]
    · by_cases hfull : min q sg.records.length = sg.records.length
      · simp only [splitScopes, if_neg hq, if_pos hfull]
        intro x hx
        rcases List.mem_cons.mp hx with hx | hx
        · rw [hx]
          exact h sg (List.mem_cons_self _ _)
        · exact ih _ (fun y hy => h y (List.mem_cons_of_mem _ hy)) x hx
      · simp only [splitScopes, if_neg hq, if_neg hfull]
        intro x hx
        rcases List.mem_cons.mp hx with hx | hx
        · rw [hx]
          apply List.ne_nil_of_length_pos
          rw [List.length_take]
          have h1 : 0 < sg.records.length :=
            List.length_pos.mpr (h sg (List.mem_cons_self _ _))
          omega
        · simp at hx

lemma splitScopes_rem_wf (q : Nat) (sgs : List (ScopeGroup σ α))
    (h : ∀ sg ∈ sgs, sg.records ≠ []) :
    ∀ sg ∈ (splitScopes q sgs).2.1, sg.records ≠ [] := by
  induction sgs generalizing q with
  | nil => simp [splitScopes]
  | cons sg rest ih =>
    by_cases hq : q = 0
    · rw [hq, splitScopes_zero]
      exact h
    · by_cases hfull : min q sg.records.length = sg.records.length
      · simp only [splitScopes, if_neg hq, if_pos hfull]
        exact ih _ (fun y hy => h y (List.mem_cons_of_mem _ hy))
      · simp only [splitScopes, if_neg hq, if_neg hfull]
        intro x hx
        rcases List.mem_cons.mp hx with hx | hx
        · rw [hx]
          apply List.ne_nil_of_length_pos
          rw [List.length_drop]
          omega
        · exact h x (List.mem_cons_of_mem _ hx)

lemma splitResources_ex_wf (q : Nat) (t : Logs ρ σ α) (h : WellFormed t) :
    WellFormed (splitResources q t).1 := by
  induction t generalizing q with
  | nil => simp [splitResources, WellFormed]
  | cons rg rest ih =>
    by_cases hq : q = 0
    · simp [splitResources, hq, WellFormed]
    · simp only [splitResources, if_neg hq]
      intro x hx
      rcases List.mem_append.mp hx with hx | hx
      · by_cases hempty : (splitScopes q rg.scopes).1.isEmpty
        · rw [if_pos hempty] at hx
          simp at hx
        · rw [if_neg hempty] at hx
          rcases List.mem_cons.mp hx with hx | hx
          · subst hx
            refine ⟨?_, ?_⟩
            · intro hnil
              apply hempty
              dsimp only at hnil
              rw [hnil]
              rfl
            · exact splitScopes_ex_wf q rg.scopes (h rg (List.mem_cons_self _ _)).2
          · simp at hx
      · exact ih _ (fun y hy => h y (List.mem_cons_of_mem _ hy)) x hx

lemma splitResources_rem_wf (q : Nat) (t : Logs ρ σ α) (h : WellFormed t) :
    WellFormed (splitResources q t).2.1 := by
  induction t generalizing q with
  | nil => simp [splitResources, WellFormed]
  | cons rg rest ih =>
    by_cases hq : q = 0
    · rw [hq, splitResources_zero]
      exact h
    · simp only [splitResources, if_neg hq]
      intro x hx
      rcases List.mem_append.mp hx with hx | hx
      · by_cases hzero : countS (splitScopes q rg.scopes).2.1 = 0
        · rw [if_pos hzero] at hx
          simp at hx
        · rw [if_neg hzero] at hx
          rcases List.mem_cons.mp hx with hx | hx
          · subst hx
            refine ⟨?_, ?_⟩
            · intro hnil
              apply hzero
              dsimp only at hnil
              rw [hnil]
              rfl
            · exact splitScopes_rem_wf q rg.scopes (h rg (List.mem_cons_self _ _)).2
          · simp at hx
      · exact ih _ (fun y hy => h y (List.mem_cons_of_mem _ hy)) x hx

lemma splitLogs_nonpos_eq (size : Int) (t : Logs ρ σ α) (h : size ≤ 0) :
    splitLogs size t = ([], t) := by
  unfold splitLogs
  rw [if_pos h]

lemma splitLogs_noop_eq (size : Int) (t : Logs ρ σ α) (h1 : 0 < size)
    (h2 : (logRecordCount t : Int) ≤ size) : splitLogs size t = (t, t) := by
  unfold splitLogs
  rw [if_neg (by omega), if_pos h2]

lemma splitLogs_main_eq (size : Int) (t : Logs ρ σ α) (h1 : 0 < size)
    (h2 : size < (logRecordCount t : Int)) :
    splitLogs size t = ((splitResources size.toNat t).1, (splitResources size.toNat t).2.1) := by
  unfold splitLogs
  rw [if_neg (by omega), if_neg (by omega)]

lemma splitLogs_leaves_main (size : Int) (t : Logs ρ σ α) (h1 : 0 < size)
    (h2 : size < (logRecordCount t : Int)) :
    leaves (splitLogs size t).1 ++ leaves (splitLogs size t).2 = leaves t := by
  rw [splitLogs_main_eq size t h1 h2]
  exact splitResources_leaves _ t

lemma splitLogs_count_ex_main (size : Int) (t : Logs ρ σ α) (h1 : 0 < size)
    (h2 : size < (logRecordCount t : Int)) :
    logRecordCount (splitLogs size t).1 = size.toNat := by
  rw [splitLogs_main_eq size t h1 h2]
  dsimp only
  rw [splitResources_count_ex]
  omega

lemma splitLogs_count_conserved_main (size : Int) (t : Logs ρ σ α) (h1 : 0 < size)
    (h2 : size < (logRecordCount t : Int)) :
    logRecordCount t = logRecordCount (splitLogs size t).1 + logRecordCount (splitLogs size t).2 := by
  have hl := splitLogs_leaves_main size t h1 h2
  have := congrArg List.length hl
  rw [List.length_append] at this
  rw [logRecordCount_eq_length, logRecordCount_eq_length, logRecordCount_eq_length, ← this]

lemma splitLogs_count_rem_main (size : Int) (t : Logs ρ σ α) (h1 : 0 < size)
    (h2 : size < (logRecordCount t : Int)) :
    logRecordCount (splitLogs size t).2 = logRecordCount t - size.toNat := by
  have hc := splitLogs_count_conserved_main size t h1 h2
  have he := splitLogs_count_ex_main size t h1 h2
  omega

/-- The caller protocol of repeated splitting: call `splitLogs` on the tree,
emit the leaf sequence of the extracted tree, and continue on the mutated
original; the call that finds the whole remainder within the quota is the
final one (its no-op return is treated as final, per spec section 4.2).
`fuel` bounds the recursion. -/
def drainSplit (size : Int) : Nat → Logs ρ σ α → List (List α)
  | 0, _ => []
  | fuel + 1, t =>
    if (logRecordCount t : Int) ≤ size then [leaves (splitLogs size t).1]
    else leaves (splitLogs size t).1 :: drainSplit size fuel (splitLogs size t).2

/-- A well-formed tree with a single Resource Group, a single Scope Group and
two leaves. -/
def sampleWF2 : Logs Nat Nat Nat := [⟨0, [⟨0, [0, 1]⟩]⟩]

/-- A well-formed tree with a single Resource Group, a single Scope Group and
three leaves. -/
def sampleWF3 : Logs Nat Nat Nat := [⟨0, [⟨0, [0, 1, 2]⟩]⟩]

/-- A tree holding exactly one leaf record. -/
def oneLeafTree : Logs Nat Nat Nat := [⟨0, [⟨0, [0]⟩]⟩]

/-- A degenerate tree whose single Resource Group has zero Scope Groups. -/
def emptyResourceTree : Logs Nat Nat Nat := [⟨0, []⟩]

/-- The concrete scenario tree of the spec: one Resource Group, one Scope Group,
20 leaves numbered 0..19. -/
def tree20 : Logs Nat Nat Nat := [⟨0, [⟨0, List.range 20⟩]⟩]

/-- First of four sequential `split(5, tree)` calls on `tree20`. -/
def step1 : Logs Nat Nat Nat × Logs Nat Nat Nat := splitLogs 5 tree20

/-- Second sequential call, on the mutated original. -/
def step2 : Logs Nat Nat Nat × Logs Nat Nat Nat := splitLogs 5 step1.2

/-- Third sequential call. -/
def step3 : Logs Nat Nat Nat × Logs Nat Nat Nat := splitLogs 5 step2.2

/-- Fourth sequential call. -/
def step4 : Logs Nat Nat Nat × Logs Nat Nat Nat := splitLogs 5 step3.2

/-- C1: the claim quantifies leaf conservation over every well-formed tree and
every positive N, but on the fast path (leaf count at most N) the extracted
tree is the original itself, so its leaves are counted on both sides: for the
one-leaf tree and N = 5 the sum of the two counts is 2, not 1. -/
theorem noop_breaks_global_conservation :
    WellFormed oneLeafTree ∧ (0 : Int) < 5 ∧
    logRecordCount oneLeafTree ≠
      logRecordCount (splitLogs 5 oneLeafTree).1 +
        logRecordCount (splitLogs 5 oneLeafTree).2 := by
  decide

/-- C1 (amended): for every well-formed tree and positive N, when a split
actually occurs (total leaf count exceeds N) the leaf count before the call
equals the leaf count of the extracted tree plus the leaf count of the
mutated original. -/
theorem splitLogs_leaf_conservation (size : Int) (t : Logs ρ σ α) (hw : WellFormed t)
    (h1 : 0 < size) (h2 : size < (logRecordCount t : Int)) :
    logRecordCount t =
      logRecordCount (splitLogs size t).1 + logRecordCount (splitLogs size t).2 :=
  splitLogs_count_conserved_main size t h1 h2

/-- Witness for C1 (amended) at the two-leaf tree and N = 1. -/
theorem splitLogs_leaf_conservation_witness :
    logRecordCount sampleWF2 =
      logRecordCount (splitLogs 1 sampleWF2).1 + logRecordCount (splitLogs 1 sampleWF2).2 :=
  splitLogs_leaf_conservation 1 sampleWF2 (by decide) (by decide) (by decide)

/-- C2: whenever the tree holds more than N leaves and N is positive, the
extracted tree holds exactly N leaf records. -/
theorem splitLogs_exact_size (size : Int) (t : Logs ρ σ α) (h1 : 0 < size)
    (h2 : size < (logRecordCount t : Int)) :
    (logRecordCount (splitLogs size t).1 : Int) = size := by
  have h := splitLogs_count_ex_main size t h1 h2
  omega

/-- Witness for C2 at the two-leaf tree and N = 1. -/
theorem splitLogs_exact_size_witness :
    (logRecordCount (splitLogs 1 sampleWF2).1 : Int) = 1 :=
  splitLogs_exact_size 1 sampleWF2 (by decide) (by decide)

/-- C3: when the leaf count of the tree is at most N (N positive), the call is a
pure no-op: the extracted result is the input tree itself and the original is
left unchanged with its full leaf count. -/
theorem splitLogs_noop (size : Int) (t : Logs ρ σ α) (h1 : 0 < size)
    (h2 : (logRecordCount t : Int) ≤ size) : splitLogs size t = (t, t) :=
  splitLogs_noop_eq size t h1 h2

/-- Witness for C3 at the two-leaf tree and N = 5. -/
theorem splitLogs_noop_witness : splitLogs 5 sampleWF2 = (sampleWF2, sampleWF2) :=
  splitLogs_noop 5 sampleWF2 (by decide) (by decide)

/-- C4: repeated `split(N, tree)` calls against the same shrinking tree, the
final no-op return treated as the last batch, concatenate (in call order) to
exactly the leaf sequence of the original tree — same order, nothing repeated,
nothing omitted. -/
theorem drainSplit_reproduces_leaves (size : Int) (fuel : Nat) (t : Logs ρ σ α)
    (h1 : 0 < size) (h2 : logRecordCount t < fuel) :
    (drainSplit size fuel t).flatten = leaves t := by
  induction fuel generalizing t with
  | zero => omega
  | succ fuel ih =>
    by_cases hle : (logRecordCount t : Int) ≤ size
    · simp only [drainSplit, if_pos hle, splitLogs_noop_eq size t h1 hle]
      simp
    · push_neg at hle
      simp only [drainSplit, if_neg (by omega : ¬((logRecordCount t : Int) ≤ size)),
        List.flatten_cons]
      have hrem : logRecordCount (splitLogs size t).2 = logRecordCount t - size.toNat :=
        splitLogs_count_rem_main size t h1 hle
      have hlt : logRecordCount (splitLogs size t).2 < fuel := by omega
      rw [ih _ hlt]
      exact splitLogs_leaves_main size t h1 hle

/-- Witness for C4: draining the three-leaf tree with N = 2 yields the
original leaf sequence. -/
theorem drainSplit_reproduces_leaves_witness :
    (drainSplit 2 4 sampleWF3).flatten = leaves sampleWF3 :=
  drainSplit_reproduces_leaves 2 4 sampleWF3 (by decide) (by decide)

/-- C5: the claim says the original has 0 leaves after the fourth
`split(5, ·)` call on the 20-leaf tree, but the fourth call is a no-op (5
leaves remain, 5 ≤ 5) that removes nothing: the original still holds 5
leaves — exactly what the test in the repository asserts. -/
theorem fourth_split_leaves_five_not_zero :
    logRecordCount step4.2 = 5 ∧ logRecordCount step4.2 ≠ 0 := by
  decide

/-- C5 (amended): four sequential `split(5, ·)` calls on the 20-leaf tree
return extracted trees with leaf-index ranges [0-4], [5-9], [10-14] and
[15-19]; after the fourth call the original tree still holds 5 leaves (the
fourth call is a no-op returning the remainder without clearing the
original). -/
theorem four_splits_of_twenty :
    leaves step1.1 = List.range' 0 5 ∧ leaves step2.1 = List.range' 5 5 ∧
    leaves step3.1 = List.range' 10 5 ∧ leaves step4.1 = List.range' 15 5 ∧
    logRecordCount step4.2 = 5 := by
  decide

/-- C6: the claim quantifies over every split call, but a no-op call returns
the input tree verbatim: a degenerate input whose Resource Group has zero
Scope Groups yields an extracted tree containing that empty Resource
Group. -/
theorem noop_preserves_empty_resource_group :
    (splitLogs 1 emptyResourceTree).1 = emptyResourceTree ∧
    ¬ WellFormed (splitLogs 1 emptyResourceTree).1 := by
  decide

/-- C6 (amended): provided the input tree has no empty groups, after any
split neither the extracted tree nor the mutated original contains a
Resource Group with zero Scope Groups or a Scope Group with zero Leaf
Records. -/
theorem splitLogs_no_empty_groups (size : Int) (t : Logs ρ σ α) (hw : WellFormed t) :
    WellFormed (splitLogs size t).1 ∧ WellFormed (splitLogs size t).2 := by
  rcases le_or_lt size 0 with h1 | h1
  · rw [splitLogs_nonpos_eq size t h1]
    refine ⟨?_, hw⟩
    intro rg hrg
    simp at hrg
  · rcases le_or_lt (logRecordCount t : Int) size with h2 | h2
    · rw [splitLogs_noop_eq size t h1 h2]
      exact ⟨hw, hw⟩
    · rw [splitLogs_main_eq size t h1 h2]
      exact ⟨splitResources_ex_wf _ _ hw, splitResources_rem_wf _ _ hw⟩

/-- Witness for C6 (amended) at the two-leaf tree and N = 1. -/
theorem splitLogs_no_empty_groups_witness :
    WellFormed (splitLogs 1 sampleWF2).1 ∧ WellFormed (splitLogs 1 sampleWF2).2 :=
  splitLogs_no_empty_groups 1 sampleWF2 (by decide)

/-- C8: a non-positive `maxRecords` extracts nothing — an empty extracted
tree is returned and the original is completely unchanged.  The operation is
a total function in this embedding, so every call terminates. -/
theorem splitLogs_nonpos (size : Int) (t : Logs ρ σ α) (h : size ≤ 0) :
    splitLogs size t = ([], t) :=
  splitLogs_nonpos_eq size t h

/-- Witness for C8 at N = -3 on the two-leaf tree. -/
theorem splitLogs_nonpos_witness : splitLogs (-3) sampleWF2 = ([], sampleWF2) :=
  splitLogs_nonpos (-3) sampleWF2 (by decide)

end OtelSplit

namespace OtelText

/-- The value kinds of `pdata.Value`; the renderer in
`internal/otlptext/databuffer.go` handles six of them and falls back to a
placeholder for the rest (`ValueTypeEmpty`, `ValueTypeBytes`). -/
inductive ValueType where
  | empty
  | string
  | int
  | double
  | bool
  | map
  | slice
  | bytes
  deriving DecidableEq

/-- Models `pdata.ValueType.String()` of the collector data-model library
(external to the rendering source under verification). -/
def ValueType.toText : ValueType → String
  | .empty => "EMPTY"
  | .string => "STRING"
  | .int => "INT"
  | .double => "DOUBLE"
  | .bool => "BOOL"
  | .map => "MAP"
  | .slice => "SLICE"
  | .bytes => "BYTES"

/-- A `pdata.Value`: a closed tagged union over the attribute value kinds.
The double payload is carried opaquely (its decimal formatting is a library
concern, abstracted by `formatFloat`); bytes payloads are byte lists. -/
inductive Value where
  | str (s : String)
  | int (i : Int)
  | double (d : Float)
  | bool (b : Bool)
  | map (kvs : List (String × Value))
  | slice (elems : List Value)
  | bytes (bs : List Nat)
  | empty

/-- The tag of a value, mirroring `pdata.Value.Type()`. -/
def Value.type : Value → ValueType
  | .str _ => .string
  | .int _ => .int
  | .double _ => .double
  | .bool _ => .bool
  | .map _ => .map
  | .slice _ => .slice
  | .bytes _ => .bytes
  | .empty => .empty

/-- Abstraction of the Go function `strconv.FormatBool`. -/
def formatBool (b : Bool) : String :=
  if b then "true" else "false"

/-- Abstraction of the Go function `strconv.FormatInt` in base 10. -/
def formatInt (i : Int) : String := toString i

/-- Abstraction of the Go call `strconv.FormatFloat` in fixed notation with
shortest round-trippable decimal precision; the exact decimal text is a floating-point library
concern outside this embedding and is irrelevant to the properties proved
here. -/
def formatFloat (d : Float) : String := toString d

mutual

/-- Modelled from the spec: `pdata.Value.AsString`, the data-model helper the
map renderer calls, is not among the given sources; the spec only requires a
deterministic total rendering of each value, so a JSON-like one is used. -/
def Value.asString : Value → String
  | .str s => s
  | .int i => formatInt i
  | .double d => formatFloat d
  | .bool b => formatBool b
  | .map kvs => "\x7b" ++ asStringKVs kvs ++ "\x7d"
  | .slice elems => "[" ++ asStringElems elems ++ "]"
  | .bytes bs => toString bs
  | .empty => ""

/-- Renders the entries of a map value for `Value.asString`. -/
def asStringKVs : List (String × Value) → String
  | [] => ""
  | [(k, v)] => "\x22" ++ k ++ "\x22:" ++ Value.asString v
  | (k, v) :: p :: rest =>
    "\x22" ++ k ++ "\x22:" ++ Value.asString v ++ "," ++ asStringKVs (p :: rest)

/-- Renders the elements of a slice value for `Value.asString`. -/
def asStringElems : List Value → String
  | [] => ""
  | [v] => Value.asString v
  | v :: w :: rest => Value.asString v ++ "," ++ asStringElems (w :: rest)

end

/-- Insert one key/value pair into a key-sorted association list; component
of the model of `pdata.Map.Sort()` used by `mapToString`. -/
def insertByKey (p : String × Value) : List (String × Value) → List (String × Value)
  | [] => [p]
  | q :: rest => if p.1 < q.1 then p :: q :: rest else q :: insertByKey p rest

/-- Models `pdata.Map.Sort()`: the entries of the map sorted by key. -/
def sortByKey : List (String × Value) → List (String × Value)
  | [] => []
  | p :: rest => insertByKey p (sortByKey rest)

/-- One `     -> key: TYPE(value)` line of the map rendering, as written by
the range callback of `mapToString`. -/
def mapEntryLine (k : String) (v : Value) : String :=
  "     -> " ++ k ++ ": " ++ v.type.toText ++ "(" ++ v.asString ++ ")\n"

/-- Embeds `mapToString` of `internal/otlptext/databuffer.go`: opening brace and
newline, one line per entry of the key-sorted map, closing brace. -/
def mapToString (m : List (String × Value)) : String :=
  "\x7b\n" ++ String.join ((sortByKey m).map fun p => mapEntryLine p.1 p.2) ++ "\x7d"

mutual

/-- Embeds `attributeValueToString` of `internal/otlptext/databuffer.go`: a
switch over the type of the value; strings pass through, bools/doubles/ints are formatted
by `strconv`, slices and maps recurse, and every other kind falls to the
placeholder of the default branch. -/
def attributeValueToString : Value → String
  | .str s => s
  | .bool b => formatBool b
  | .double d => formatFloat d
  | .int i => formatInt i
  | .slice elems => sliceToString elems
  | .map kvs => mapToString kvs
  | v => "<Unknown OpenTelemetry attribute value type \x22" ++ v.type.toText ++ "\x22>"

/-- Embeds `sliceToString` of `internal/otlptext/databuffer.go`: the elements
rendered by `attributeValueToString`, comma-separated, in brackets. -/
def sliceToString (elems : List Value) : String :=
  "[" ++ sliceInner elems ++ "]"

/-- The element loop of `sliceToString`: every element but the last is
followed by a comma and a space. -/
def sliceInner : List Value → String
  | [] => ""
  | [v] => attributeValueToString v
  | v :: w :: rest => attributeValueToString v ++ ", " ++ sliceInner (w :: rest)

end

/-- C10: the renderer is total over every value kind; for any value whose
type is outside the six handled kinds the default branch of the switch
returns the
`<Unknown OpenTelemetry attribute value type ...>` placeholder (the quoted
type name), never a panic. -/
theorem attributeValueToString_total_default (v : Value)
    (h1 : v.type ≠ ValueType.string) (h2 : v.type ≠ ValueType.bool)
    (h3 : v.type ≠ ValueType.double) (h4 : v.type ≠ ValueType.int)
    (h5 : v.type ≠ ValueType.slice) (h6 : v.type ≠ ValueType.map) :
    attributeValueToString v =
      "<Unknown OpenTelemetry attribute value type \x22" ++ v.type.toText ++ "\x22>" := by
  cases v with
  | str s => exact absurd rfl h1
  | bool b => exact absurd rfl h2
  | double d => exact absurd rfl h3
  | int i => exact absurd rfl h4
  | slice elems => exact absurd rfl h5
  | map kvs => exact absurd rfl h6
  | bytes bs => simp [attributeValueToString, Value.type]
  | empty => simp [attributeValueToString, Value.type]

/-- Witness for C10 at the empty value. -/
theorem attributeValueToString_total_default_witness :
    attributeValueToString Value.empty =
      "<Unknown OpenTelemetry attribute value type \x22EMPTY\x22>" :=
  attributeValueToString_total_default Value.empty
    (by intro h; cases h) (by intro h; cases h) (by intro h; cases h)
    (by intro h; cases h) (by intro h; cases h) (by intro h; cases h)

end OtelText
